import Mathlib

/-!
Verification of the sentence-level annotation pipeline of the polymer
chromatography scanner (source file `src/unnamed/part_000`).

The pipeline is embedded shallowly:

* sentence segmentation and tokenization are performed by the external
  `spacy` collaborator, so the core receives a list of `Sent` values
  (raw text plus its token sequence) and a token classifier `ln`
  standing for spaCy's `LIKE_NUM`;
* Python sets of tags become `Finset Tag`;
* Python's truncating `max(0, i - CONTEXT)` becomes `Nat` subtraction
  `i - CONTEXT`, which has exactly that value;
* Python's `sorted(hits)` compares 4-tuples lexicographically; the
  fourth component (a Python `set`, whose `<` is a partial order) is
  modelled by the canonical bit-encoding `tagsKey`, which gives a
  linear order refining the (start, end, score) comparison that the
  program relies on;
* the in-place list mutation of the merge loop becomes a pure fold.
-/

namespace PolymerScan

/-- The tags that can ever be attached to a sentence: the four
vocabulary category names, the three matcher rule names, and `TABLE`.
(`SOLVENT_RATIO_TAG` stands for the source's `"SOLVENT_RATIO"` rule
name.) -/
inductive Tag where
  | STATIONARY
  | CRITICAL
  | SAMPLE
  | SOLVENT
  | MEASUREMENT
  | NUMERIC_RANGE
  | SOLVENT_RATIO_TAG
  | TABLE
deriving DecidableEq

/-- A sentence as delivered by the external segmenter/tokenizer: its
raw text and its token sequence. -/
structure Sent where
  text : String
  toks : List String
deriving DecidableEq

instance : Inhabited Sent := ⟨⟨"", []⟩⟩

/-- `CONTEXT = 2` of the source. -/
def CONTEXT : Nat := 2

/-- `VOCAB["STATIONARY"]` from the source. -/
def stationaryWords : List String :=
  ["pore size", "pore diameter", "porosity", "mesoporous", "microporous",
   "macroporous", "particle size", "bead size", "column dimensions",
   "column length", "inner diameter", "stationary phase", "packing material",
   "reverse phase", "normal phase", "sec", "gpc", "hilic"]

/-- `VOCAB["CRITICAL"]` from the source. -/
def criticalWords : List String :=
  ["critical", "acceptable", "allowable", "specified", "recommended",
   "limit", "limits", "range", "maximum", "minimum", "upper", "lower"]

/-- `VOCAB["SAMPLE"]` from the source. -/
def sampleWords : List String :=
  ["measured", "observed", "evaluated", "obtained", "ranged", "varied",
   "experimental", "samples"]

/-- `VOCAB["SOLVENT"]` from the source. -/
def solventWords : List String :=
  ["water", "methanol", "ethanol", "acetonitrile", "thf", "dmf", "dmso",
   "buffer", "mobile phase", "eluent", "solvent"]

/-- `VOCAB`, in the source's (Python dict insertion) iteration order. -/
def VOCAB : List (Tag × List String) :=
  [(Tag.STATIONARY, stationaryWords), (Tag.CRITICAL, criticalWords),
   (Tag.SAMPLE, sampleWords), (Tag.SOLVENT, solventWords)]

/-- `ALL_KEYWORDS = set().union(*VOCAB.values())`: the union of all
category keyword lists (they are pairwise disjoint in the source, so
plain concatenation realizes the set union). -/
def allKeywords : List String :=
  stationaryWords ++ criticalWords ++ sampleWords ++ solventWords

/-- ASCII lowercasing, Python `str.lower()` restricted to the ASCII
texts the program works with. -/
def lowerStr (s : String) : String := ⟨s.data.map Char.toLower⟩

/-- The characters Python `str.strip()` removes (ASCII whitespace). -/
def isPySpace (c : Char) : Bool :=
  c == ' ' || c == '\t' || c == '\n' || c == '\r' || c == '\x0b' || c == '\x0c'

/-- Python `str.strip()`: drop leading and trailing whitespace. -/
def pyStrip (s : String) : String :=
  ⟨((s.data.dropWhile isPySpace).reverse.dropWhile isPySpace).reverse⟩

/-- Does the second list start with the first one? -/
def startsWith : List Char → List Char → Bool
  | [], _ => true
  | _ :: _, [] => false
  | a :: as, b :: bs => a == b && startsWith as bs

/-- Python's `needle in hay` on strings: contiguous substring
containment, here on the underlying character lists. -/
def substrIn (needle : List Char) : List Char → Bool
  | [] => startsWith needle []
  | c :: cs => startsWith needle (c :: cs) || substrIn needle cs

/-- `looks_like_table(t)`: `re.search(r"\d", t)` together with a double
space or a tab somewhere in `t`. -/
def looks_like_table (t : String) : Bool :=
  t.data.any Char.isDigit &&
    (substrIn (("  ").data) t.data || t.data.contains '\t')

/-- One spaCy token pattern: a list of per-token predicates that must
hold on consecutive tokens. -/
abbrev TokPattern := List (String → Bool)

/-- `matcher.add("MEASUREMENT", ...)`: a number-like token followed by a
unit token (compared lowercased, as spaCy's `LOWER` does). -/
def patMEASUREMENT (ln : String → Bool) : TokPattern :=
  [ln, fun t => lowerStr t ∈ (["nm", "um", "mm", "cm"] : List String)]

/-- First `NUMERIC_RANGE` pattern: number, hyphen or en-dash, number. -/
def patRANGE1 (ln : String → Bool) : TokPattern :=
  [ln, fun t => t ∈ (["-", "–"] : List String), ln]

/-- Second `NUMERIC_RANGE` pattern: "between", number, "and", number. -/
def patRANGE2 (ln : String → Bool) : TokPattern :=
  [fun t => lowerStr t == "between", ln, fun t => lowerStr t == "and", ln]

/-- The `"SOLVENT_RATIO"` pattern: number, ":" or "/", number. -/
def patRATIO_P (ln : String → Bool) : TokPattern :=
  [ln, fun t => t ∈ ([":", "/"] : List String), ln]

/-- Does the pattern match the first tokens of the list? -/
def patMatchAt : TokPattern → List String → Bool
  | [], _ => true
  | _ :: _, [] => false
  | p :: ps, t :: ts => p t && patMatchAt ps ts

/-- Number of positions of the token list at which the pattern matches
(spaCy's `Matcher` reports every such occurrence). -/
def countMatches (ps : TokPattern) : List String → Nat
  | [] => if patMatchAt ps [] then 1 else 0
  | t :: ts => (if patMatchAt ps (t :: ts) then 1 else 0) + countMatches ps ts

/-- The multiset of rule names reported by `matcher(s)`, one entry per
match occurrence (the order of the entries is irrelevant to the
program: it only sums `+4` per entry and inserts the name into a set). -/
def matcherHits (ln : String → Bool) (toks : List String) : List Tag :=
  List.replicate (countMatches (patMEASUREMENT ln) toks) Tag.MEASUREMENT ++
  List.replicate (countMatches (patRANGE1 ln) toks + countMatches (patRANGE2 ln) toks)
    Tag.NUMERIC_RANGE ++
  List.replicate (countMatches (patRATIO_P ln) toks) Tag.SOLVENT_RATIO_TAG

/-- The per-sentence body of the `analyze` loop: starting from
`score = 0, tags = set()` it runs the vocabulary pass (substring test
on the lowercased text, `+2` for `SOLVENT`, `+3` otherwise), then the
matcher pass (`+4` per occurrence), then the table heuristic (`+3`) on
the stripped text. Returns `(score, tags)`. -/
def sentenceData (ln : String → Bool) (s : Sent) : Nat × Finset Tag :=
  let t := pyStrip s.text
  let tl := lowerStr s.text
  let p1 := VOCAB.foldl
    (fun (acc : Nat × Finset Tag) c =>
      if c.2.any (fun w => substrIn w.data tl.data) then
        (acc.1 + (if c.1 = Tag.SOLVENT then 2 else 3), insert c.1 acc.2)
      else acc)
    (0, (∅ : Finset Tag))
  let p2 := (matcherHits ln s.toks).foldl
    (fun (acc : Nat × Finset Tag) mid => (acc.1 + 4, insert mid acc.2)) p1
  if looks_like_table t then (p2.1 + 3, insert Tag.TABLE p2.2) else p2

/-- `classify(tags)` from the source: ordered priority list over the
region's tag set. -/
def classify (tags : Finset Tag) : String :=
  if ({Tag.CRITICAL, Tag.NUMERIC_RANGE} : Finset Tag) ⊆ tags then
    "CONFIRMED CRITICAL RANGES"
  else if ({Tag.SAMPLE, Tag.NUMERIC_RANGE} : Finset Tag) ⊆ tags then
    "USED / SAMPLE RANGES"
  else if Tag.SOLVENT ∈ tags then "SOLVENT COMPOSITION"
  else if Tag.TABLE ∈ tags then "TABLE / NUMERIC DATA"
  else "OTHER RELEVANT INFORMATION"

/-- A context window produced for a scoring sentence (and also the
shape of a merged region): `(window_start, window_end, score, tags)`
as in the source's 4-tuples. -/
structure Hit where
  window_start : Nat
  window_end : Nat
  score : Nat
  tags : Finset Tag
deriving DecidableEq

/-- Injective encoding of a tag set as an 8-bit number; used to give
the tag-set component of a hit a total order (Python compares the
4-tuples of `sorted(hits)` lexicographically; its set comparison is
only partial, and the merge result does not depend on how ties whose
first three components agree are ordered). -/
def tagsKey (s : Finset Tag) : Nat :=
  (if Tag.STATIONARY ∈ s then 1 else 0) +
  2 * (if Tag.CRITICAL ∈ s then 1 else 0) +
  4 * (if Tag.SAMPLE ∈ s then 1 else 0) +
  8 * (if Tag.SOLVENT ∈ s then 1 else 0) +
  16 * (if Tag.MEASUREMENT ∈ s then 1 else 0) +
  32 * (if Tag.NUMERIC_RANGE ∈ s then 1 else 0) +
  64 * (if Tag.SOLVENT_RATIO_TAG ∈ s then 1 else 0) +
  128 * (if Tag.TABLE ∈ s then 1 else 0)

/-- The lexicographic comparison `sorted(hits)` sorts by: window start,
then window end, then score, then the tag set (totalized by
`tagsKey`). -/
def hitLE (a b : Hit) : Prop :=
  a.window_start < b.window_start ∨
    (a.window_start = b.window_start ∧
      (a.window_end < b.window_end ∨
        (a.window_end = b.window_end ∧
          (a.score < b.score ∨
            (a.score = b.score ∧ tagsKey a.tags ≤ tagsKey b.tags)))))

instance : DecidableRel hitLE := fun a b =>
  inferInstanceAs (Decidable (a.window_start < b.window_start ∨
    (a.window_start = b.window_start ∧ (a.window_end < b.window_end ∨
      (a.window_end = b.window_end ∧ (a.score < b.score ∨
        (a.score = b.score ∧ tagsKey a.tags ≤ tagsKey b.tags)))))))

/-- `sorted(hits)`. -/
def sortHits (hits : List Hit) : List Hit := hits.insertionSort hitLE

/-- One iteration of the source's merge loop: append the hit as a new
region when the output is empty or its window starts strictly after the
last region's end; otherwise coalesce it into the last region (end and
score by `max`, tags by union). -/
def mergeStep (merged : List Hit) (h : Hit) : List Hit :=
  match merged.getLast? with
  | none => [h]
  | some l =>
    if l.window_end < h.window_start then merged ++ [h]
    else
      merged.dropLast ++
        [⟨l.window_start, max l.window_end h.window_end,
          max l.score h.score, l.tags ∪ h.tags⟩]

/-- The full merge pass: sort the hits, then sweep left to right. -/
def mergeHits (hits : List Hit) : List Hit :=
  (sortHits hits).foldl mergeStep []

/-- The hit-collection loop of `analyze`, recursing over the sentence
list while carrying the running index `i` and the total sentence count
`N`: a sentence with nonzero score yields the window
`[i - CONTEXT, min N (i + CONTEXT + 1))` (truncating `Nat` subtraction
is Python's `max(0, i - CONTEXT)`). -/
def hitsFrom (ln : String → Bool) (N : Nat) : Nat → List Sent → List Hit
  | _, [] => []
  | i, s :: rest =>
    (if (sentenceData ln s).1 ≠ 0 then
      [⟨i - CONTEXT, min N (i + CONTEXT + 1),
        (sentenceData ln s).1, (sentenceData ln s).2⟩]
    else []) ++ hitsFrom ln N (i + 1) rest

/-- All hits of a document. -/
def hitsOf (ln : String → Bool) (sents : List Sent) : List Hit :=
  hitsFrom ln sents.length 0 sents

/-- The merged regions of a document. -/
def mergedOf (ln : String → Bool) (sents : List Sent) : List Hit :=
  mergeHits (hitsOf ln sents)

/-- Word characters of the regex `\b` boundary (`\w`, ASCII scope). -/
def isWordChar (c : Char) : Bool := c.isAlphanum || c == '_'

/-- Case-insensitive prefix test (`re.I` on the ASCII keywords). -/
def ciMatch : List Char → List Char → Bool
  | [], _ => true
  | _ :: _, [] => false
  | k :: ks, c :: cs => (k.toLower == c.toLower) && ciMatch ks cs

/-- The trailing `\b` of the highlight pattern: the text after the
matched keyword must not continue with a word character (every keyword
ends in a letter). -/
def boundAfter : List Char → Bool
  | [] => true
  | c :: _ => !isWordChar c

/-- The condition under which `re.sub(rf"\b{k}\b", ..., flags=re.I)`
matches keyword `k` at the current position: the previous character is
not a word character (every keyword starts with a letter), the keyword
matches case-insensitively, and the text does not continue with a word
character. -/
def hlCond (k : List Char) (prevW : Bool) (t : List Char) : Bool :=
  (k.length != 0) && !prevW && ciMatch k t && boundAfter (List.drop k.length t)

/-- One `re.sub` pass for keyword `k`, scanning left to right and
wrapping every boundary-anchored occurrence in `[[`/`]]`; matched text
is not rescanned (as with `re.sub`), scanning resumes after it. The
first argument is fuel (any value at least the text length computes the
pass; `hlPass` below instantiates it). -/
def hlRun (k : List Char) : Nat → Bool → List Char → List Char
  | 0, _, t => t
  | _ + 1, _, [] => []
  | fuel + 1, prevW, c :: cs =>
    if hlCond k prevW (c :: cs) then
      '[' :: '[' ::
        (List.take k.length (c :: cs) ++
          ']' :: ']' :: hlRun k fuel true (List.drop k.length (c :: cs)))
    else c :: hlRun k fuel (isWordChar c) cs

/-- One full `re.sub` pass over a text (position 0 has no preceding
word character). -/
def hlPass (k : List Char) (prevW : Bool) (t : List Char) : List Char :=
  hlRun k t.length prevW t

/-- Is there any boundary-anchored (case-insensitive) occurrence of `k`
in the text? Scans every position with the true preceding-character
state. -/
def hasHit (k : List Char) : Bool → List Char → Bool
  | _, [] => false
  | prevW, c :: cs => hlCond k prevW (c :: cs) || hasHit k (isWordChar c) cs

/-- `sorted(ALL_KEYWORDS, key=len, reverse=True)`: the keywords,
longest first (stable on equal lengths; Python's tie order within a set
is unspecified, and no keyword of the vocabulary can overlap an
equal-length one). -/
def sortedKeywords : List String :=
  allKeywords.insertionSort (fun a b => b.length ≤ a.length)

/-- `highlight(t)`: apply one `re.sub` pass per keyword, longest
first. -/
def highlight (t : String) : String :=
  sortedKeywords.foldl (fun acc k => ⟨hlPass k.data false acc.data⟩) t

/-- The context rendering of a region `[a, b)`: each sentence in index
order, stripped and highlighted. -/
def render (sents : List Sent) (a b : Nat) : List String :=
  (List.range' a (b - a)).map fun i =>
    highlight (pyStrip ((sents.getD i default).text))

/-- The output mapping of `analyze`: for a label, the `(score, context)`
entries of the regions classified under it, in region order. A label
with no region is absent from the Python dict, i.e. maps to `[]`. -/
def analyze (ln : String → Bool) (sents : List Sent) :
    String → List (Nat × List String) :=
  fun lab =>
    (mergedOf ln sents).filterMap fun r =>
      if classify r.tags = lab then
        some (r.score, render sents r.window_start r.window_end)
      else none

/-- Stand-in for spaCy's `LIKE_NUM` on the digit tokens appearing in
the concrete scenarios: a nonempty all-digit token. -/
def pyLikeNum (t : String) : Bool := (t.length != 0) && t.data.all Char.isDigit

/-- The ordering the specification describes for the sorted hit list:
ascending window start, ties broken by window end. -/
def startEndLE (a b : Hit) : Prop :=
  a.window_start < b.window_start ∨
    (a.window_start = b.window_start ∧ a.window_end ≤ b.window_end)

/-- The merge loop again, but with the output list kept in reverse
(newest region first); equal to `mergeStep` up to `List.reverse` and
convenient for induction. -/
def mergeRevStep (racc : List Hit) (h : Hit) : List Hit :=
  match racc with
  | [] => [h]
  | l :: rest =>
    if l.window_end < h.window_start then h :: l :: rest
    else
      ⟨l.window_start, max l.window_end h.window_end,
        max l.score h.score, l.tags ∪ h.tags⟩ :: rest

/-- Did any keyword of the list match (as substring) the lowercased
sentence text? This is `any(w in tl for w in words)`. -/
def vocabHit (tl : String) (ws : List String) : Bool :=
  ws.any (fun w => substrIn w.data tl.data)

/-- The vocabulary contribution to a sentence's score, category by
category (`+2` for `SOLVENT`, `+3` otherwise, at most once each). -/
def vocabScore (s : Sent) : Nat :=
  (if vocabHit (lowerStr s.text) stationaryWords then 3 else 0) +
  (if vocabHit (lowerStr s.text) criticalWords then 3 else 0) +
  (if vocabHit (lowerStr s.text) sampleWords then 3 else 0) +
  (if vocabHit (lowerStr s.text) solventWords then 2 else 0)

/-- The pattern-matcher contribution: `+4` per match occurrence, with
repeated occurrences each counting. -/
def patScore (ln : String → Bool) (s : Sent) : Nat :=
  4 * (countMatches (patMEASUREMENT ln) s.toks +
    (countMatches (patRANGE1 ln) s.toks + countMatches (patRANGE2 ln) s.toks) +
    countMatches (patRATIO_P ln) s.toks)

/-- The table-heuristic contribution: `+3` when it fires. -/
def tableScore (s : Sent) : Nat :=
  if looks_like_table (pyStrip s.text) then 3 else 0

/-- The tags contributed by the vocabulary pass. -/
def vocabTags (s : Sent) : Finset Tag :=
  (if vocabHit (lowerStr s.text) stationaryWords then {Tag.STATIONARY} else ∅) ∪
  (if vocabHit (lowerStr s.text) criticalWords then {Tag.CRITICAL} else ∅) ∪
  (if vocabHit (lowerStr s.text) sampleWords then {Tag.SAMPLE} else ∅) ∪
  (if vocabHit (lowerStr s.text) solventWords then {Tag.SOLVENT} else ∅)

/-- The tags contributed by the pattern matcher (each rule name at most
once, however many occurrences). -/
def patTags (ln : String → Bool) (s : Sent) : Finset Tag :=
  (matcherHits ln s.toks).toFinset

/-- The tag contributed by the table heuristic. -/
def tableTags (s : Sent) : Finset Tag :=
  if looks_like_table (pyStrip s.text) then {Tag.TABLE} else ∅

/-- A hit whose window is a nonempty in-bounds sentence range. -/
def HitBounded (N : Nat) (h : Hit) : Prop :=
  h.window_start < h.window_end ∧ h.window_end ≤ N

/-- The five taxonomy labels. -/
def labels5 : List String :=
  ["CONFIRMED CRITICAL RANGES", "USED / SAMPLE RANGES", "SOLVENT COMPOSITION",
   "TABLE / NUMERIC DATA", "OTHER RELEVANT INFORMATION"]

/-- The single sentence of end-to-end scenario 1, with the token
sequence spaCy produces for it. -/
def c9sent : Sent :=
  ⟨"The pore size was specified as 50-100 nm.",
   ["The", "pore", "size", "was", "specified", "as", "50", "-", "100", "nm", "."]⟩

/-- The tag set scenario 1 produces (written in the order the
analysis inserts the tags, so that the term is definitionally the
computed set). -/
def c9tags : Finset Tag :=
  {Tag.NUMERIC_RANGE, Tag.MEASUREMENT, Tag.CRITICAL, Tag.STATIONARY}

/-!  Helper lemmas. -/

theorem tagsKey_injective {s t : Finset Tag} (h : tagsKey s = tagsKey t) : s = t := by
  unfold tagsKey at h
  have b1 : (if Tag.STATIONARY ∈ s then (1 : Nat) else 0) ≤ 1 := by split <;> omega
  have b2 : (if Tag.CRITICAL ∈ s then (1 : Nat) else 0) ≤ 1 := by split <;> omega
  have b3 : (if Tag.SAMPLE ∈ s then (1 : Nat) else 0) ≤ 1 := by split <;> omega
  have b4 : (if Tag.SOLVENT ∈ s then (1 : Nat) else 0) ≤ 1 := by split <;> omega
  have b5 : (if Tag.MEASUREMENT ∈ s then (1 : Nat) else 0) ≤ 1 := by split <;> omega
  have b6 : (if Tag.NUMERIC_RANGE ∈ s then (1 : Nat) else 0) ≤ 1 := by split <;> omega
  have b7 : (if Tag.SOLVENT_RATIO_TAG ∈ s then (1 : Nat) else 0) ≤ 1 := by split <;> omega
  have b8 : (if Tag.TABLE ∈ s then (1 : Nat) else 0) ≤ 1 := by split <;> omega
  have c1 : (if Tag.STATIONARY ∈ t then (1 : Nat) else 0) ≤ 1 := by split <;> omega
  have c2 : (if Tag.CRITICAL ∈ t then (1 : Nat) else 0) ≤ 1 := by split <;> omega
  have c3 : (if Tag.SAMPLE ∈ t then (1 : Nat) else 0) ≤ 1 := by split <;> omega
  have c4 : (if Tag.SOLVENT ∈ t then (1 : Nat) else 0) ≤ 1 := by split <;> omega
  have c5 : (if Tag.MEASUREMENT ∈ t then (1 : Nat) else 0) ≤ 1 := by split <;> omega
  have c6 : (if Tag.NUMERIC_RANGE ∈ t then (1 : Nat) else 0) ≤ 1 := by split <;> omega
  have c7 : (if Tag.SOLVENT_RATIO_TAG ∈ t then (1 : Nat) else 0) ≤ 1 := by split <;> omega
  have c8 : (if Tag.TABLE ∈ t then (1 : Nat) else 0) ≤ 1 := by split <;> omega
  have e1 : (if Tag.STATIONARY ∈ s then (1 : Nat) else 0) =
      (if Tag.STATIONARY ∈ t then (1 : Nat) else 0) := by omega
  have e2 : (if Tag.CRITICAL ∈ s then (1 : Nat) else 0) =
      (if Tag.CRITICAL ∈ t then (1 : Nat) else 0) := by omega
  have e3 : (if Tag.SAMPLE ∈ s then (1 : Nat) else 0) =
      (if Tag.SAMPLE ∈ t then (1 : Nat) else 0) := by omega
  have e4 : (if Tag.SOLVENT ∈ s then (1 : Nat) else 0) =
      (if Tag.SOLVENT ∈ t then (1 : Nat) else 0) := by omega
  have e5 : (if Tag.MEASUREMENT ∈ s then (1 : Nat) else 0) =
      (if Tag.MEASUREMENT ∈ t then (1 : Nat) else 0) := by omega
  have e6 : (if Tag.NUMERIC_RANGE ∈ s then (1 : Nat) else 0) =
      (if Tag.NUMERIC_RANGE ∈ t then (1 : Nat) else 0) := by omega
  have e7 : (if Tag.SOLVENT_RATIO_TAG ∈ s then (1 : Nat) else 0) =
      (if Tag.SOLVENT_RATIO_TAG ∈ t then (1 : Nat) else 0) := by omega
  have e8 : (if Tag.TABLE ∈ s then (1 : Nat) else 0) =
      (if Tag.TABLE ∈ t then (1 : Nat) else 0) := by omega
  ext a
  cases a
  · constructor
    · intro hs; by_contra ht; simp [hs, ht] at e1
    · intro ht; by_contra hs; simp [hs, ht] at e1
  · constructor
    · intro hs; by_contra ht; simp [hs, ht] at e2
    · intro ht; by_contra hs; simp [hs, ht] at e2
  · constructor
    · intro hs; by_contra ht; simp [hs, ht] at e3
    · intro ht; by_contra hs; simp [hs, ht] at e3
  · constructor
    · intro hs; by_contra ht; simp [hs, ht] at e4
    · intro ht; by_contra hs; simp [hs, ht] at e4
  · constructor
    · intro hs; by_contra ht; simp [hs, ht] at e5
    · intro ht; by_contra hs; simp [hs, ht] at e5
  · constructor
    · intro hs; by_contra ht; simp [hs, ht] at e6
    · intro ht; by_contra hs; simp [hs, ht] at e6
  · constructor
    · intro hs; by_contra ht; simp [hs, ht] at e7
    · intro ht; by_contra hs; simp [hs, ht] at e7
  · constructor
    · intro hs; by_contra ht; simp [hs, ht] at e8
    · intro ht; by_contra hs; simp [hs, ht] at e8

instance : IsTotal Hit hitLE := ⟨fun a b => by unfold hitLE; omega⟩

instance : IsTrans Hit hitLE := ⟨fun a b c h1 h2 => by unfold hitLE at *; omega⟩

instance : IsAntisymm Hit hitLE where
  antisymm a b h1 h2 := by
    have hs : a.window_start = b.window_start := by unfold hitLE at h1 h2; omega
    have he : a.window_end = b.window_end := by unfold hitLE at h1 h2; omega
    have hsc : a.score = b.score := by unfold hitLE at h1 h2; omega
    have hk : tagsKey a.tags = tagsKey b.tags := by unfold hitLE at h1 h2; omega
    have htg := tagsKey_injective hk
    cases a
    cases b
    simp_all

theorem sortHits_sorted (l : List Hit) : List.Sorted hitLE (sortHits l) :=
  List.sorted_insertionSort hitLE l

theorem sortHits_perm (l : List Hit) : List.Perm (sortHits l) l :=
  List.perm_insertionSort hitLE l

theorem sortHits_congr {l l' : List Hit} (h : List.Perm l l') :
    sortHits l = sortHits l' :=
  List.eq_of_perm_of_sorted
    ((sortHits_perm l).trans (h.trans (sortHits_perm l').symm))
    (sortHits_sorted l) (sortHits_sorted l')

theorem sortHits_sorted_startEnd (l : List Hit) :
    List.Sorted startEndLE (sortHits l) :=
  (sortHits_sorted l).imp (fun h => by unfold hitLE at h; unfold startEndLE; omega)

theorem mergeStep_rev (acc : List Hit) (h : Hit) :
    mergeStep acc h = (mergeRevStep acc.reverse h).reverse := by
  rcases hrev : acc.reverse with _ | ⟨l, rest⟩
  · have hnil : acc = [] := by simpa using congrArg List.reverse hrev
    subst hnil
    simp [mergeStep, mergeRevStep]
  · have hacc : acc = rest.reverse ++ [l] := by
      have := congrArg List.reverse hrev
      simpa using this
    subst hacc
    by_cases hc : l.window_end < h.window_start <;>
      simp [mergeStep, mergeRevStep, hc, List.getLast?_concat]

theorem foldl_mergeStep_rev (l : List Hit) (acc : List Hit) :
    l.foldl mergeStep acc = (l.foldl mergeRevStep acc.reverse).reverse := by
  induction l generalizing acc with
  | nil => simp
  | cons h t ih =>
    simp only [List.foldl_cons]
    rw [ih (mergeStep acc h), mergeStep_rev, List.reverse_reverse]

theorem mergeHits_rev (hits : List Hit) :
    mergeHits hits = ((sortHits hits).foldl mergeRevStep []).reverse := by
  unfold mergeHits
  rw [foldl_mergeStep_rev]
  rfl

theorem mergeRevStep_inv {N : Nat} {racc : List Hit} {h : Hit}
    (hb : ∀ r ∈ racc, HitBounded N r) (hh : HitBounded N h)
    (hc : racc.Chain' (fun a b => b.window_end < a.window_start)) :
    (∀ r ∈ mergeRevStep racc h, HitBounded N r) ∧
      (mergeRevStep racc h).Chain' (fun a b => b.window_end < a.window_start) := by
  rcases racc with _ | ⟨l, rest⟩
  · refine ⟨?_, ?_⟩
    · intro r hr
      simp only [mergeRevStep, List.mem_singleton] at hr
      subst hr
      exact hh
    · simp [mergeRevStep]
  · simp only [mergeRevStep]
    by_cases hcond : l.window_end < h.window_start
    · rw [if_pos hcond]
      refine ⟨?_, ?_⟩
      · intro r hr
        rcases List.mem_cons.mp hr with hr | hr
        · subst hr; exact hh
        · exact hb r hr
      · exact List.chain'_cons.mpr ⟨hcond, hc⟩
    · rw [if_neg hcond]
      have hlb := hb l (List.mem_cons_self l rest)
      refine ⟨?_, ?_⟩
      · intro r hr
        rcases List.mem_cons.mp hr with hr | hr
        · subst hr
          constructor
          · exact lt_of_lt_of_le hlb.1 (le_max_left _ _)
          · exact max_le hlb.2 hh.2
        · exact hb r (List.mem_cons_of_mem l hr)
      · rcases rest with _ | ⟨m, rest'⟩
        · simp
        · have hcm := (List.chain'_cons.mp hc).1
          exact List.chain'_cons.mpr ⟨hcm, (List.chain'_cons.mp hc).2⟩

theorem foldl_mergeRevStep_inv {N : Nat} :
    ∀ l racc : List Hit, (∀ x ∈ l, HitBounded N x) →
      (∀ r ∈ racc, HitBounded N r) →
      racc.Chain' (fun a b => b.window_end < a.window_start) →
      (∀ r ∈ l.foldl mergeRevStep racc, HitBounded N r) ∧
        (l.foldl mergeRevStep racc).Chain'
          (fun a b => b.window_end < a.window_start) := by
  intro l
  induction l with
  | nil => intro racc _ hb hc; exact ⟨hb, hc⟩
  | cons h t ih =>
    intro racc hl hb hc
    have hh := hl h (List.mem_cons_self h t)
    obtain ⟨hb', hc'⟩ := mergeRevStep_inv hb hh hc
    exact ih _ (fun x hx => hl x (List.mem_cons_of_mem h hx)) hb' hc'

theorem hitsFrom_bounded (ln : String → Bool) (N : Nat) :
    ∀ (ss : List Sent) (j : Nat), j + ss.length ≤ N →
      ∀ h ∈ hitsFrom ln N j ss, HitBounded N h := by
  intro ss
  induction ss with
  | nil => intro j _ h hh; simp [hitsFrom] at hh
  | cons s rest ih =>
    intro j hj h hh
    unfold hitsFrom at hh
    rcases List.mem_append.mp hh with hh | hh
    · by_cases hs : (sentenceData ln s).1 ≠ 0
      · rw [if_pos hs] at hh
        simp only [List.mem_singleton] at hh
        subst hh
        have hjN : j < N := by simp at hj; omega
        refine ⟨?_, ?_⟩
        · show j - CONTEXT < min N (j + CONTEXT + 1)
          unfold CONTEXT
          omega
        · show min N (j + CONTEXT + 1) ≤ N
          omega
      · rw [if_neg hs] at hh
        simp at hh
    · exact ih (j + 1) (by simp at hj ⊢; omega) h hh

theorem hitsOf_bounded (ln : String → Bool) (sents : List Sent) :
    ∀ h ∈ hitsOf ln sents, HitBounded sents.length h :=
  hitsFrom_bounded ln sents.length sents 0 (by omega)

theorem mergedOf_bounded (ln : String → Bool) (sents : List Sent) :
    ∀ r ∈ mergedOf ln sents, HitBounded sents.length r := by
  intro r hr
  rw [mergedOf, mergeHits_rev] at hr
  rw [List.mem_reverse] at hr
  have hs : ∀ x ∈ sortHits (hitsOf ln sents), HitBounded sents.length x :=
    fun x hx => hitsOf_bounded ln sents x ((sortHits_perm _).subset hx)
  exact (foldl_mergeRevStep_inv _ [] hs (by simp) (by simp)).1 r hr

theorem mergedOf_chain (ln : String → Bool) (sents : List Sent) :
    (mergedOf ln sents).Chain' (fun a b => a.window_end < b.window_start) := by
  rw [mergedOf, mergeHits_rev]
  have hs : ∀ x ∈ sortHits (hitsOf ln sents), HitBounded sents.length x :=
    fun x hx => hitsOf_bounded ln sents x ((sortHits_perm _).subset hx)
  have hch := (foldl_mergeRevStep_inv _ [] hs (by simp) (by simp)).2
  rw [List.chain'_reverse]
  exact hch.imp (fun a b hab => hab)

theorem chain_bounds_pairwise :
    ∀ l : List Hit, l.Chain' (fun a b => a.window_end < b.window_start) →
      (∀ r ∈ l, r.window_start < r.window_end) →
      l.Pairwise (fun a b => a.window_end < b.window_start) := by
  intro l
  induction l with
  | nil => intro _ _; exact List.Pairwise.nil
  | cons a t ih =>
    intro hc hb
    have hct := (List.chain'_cons'.mp hc).2
    have hpt := ih hct (fun r hr => hb r (List.mem_cons_of_mem a hr))
    refine List.pairwise_cons.mpr ⟨?_, hpt⟩
    intro b hbt
    rcases t with _ | ⟨m, t'⟩
    · simp at hbt
    · have ham : a.window_end < m.window_start := (List.chain'_cons.mp hc).1
      rcases List.mem_cons.mp hbt with hbm | hbt'
      · subst hbm; exact ham
      · have hmb : m.window_end < b.window_start :=
          (List.pairwise_cons.mp hpt).1 b hbt'
        have hmm : m.window_start < m.window_end :=
          hb m (List.mem_cons_of_mem a (List.mem_cons_self m t'))
        omega

theorem mergedOf_pairwise (ln : String → Bool) (sents : List Sent) :
    (mergedOf ln sents).Pairwise (fun a b => a.window_end < b.window_start) :=
  chain_bounds_pairwise _ (mergedOf_chain ln sents)
    (fun r hr => (mergedOf_bounded ln sents r hr).1)

theorem mergedOf_pairwise_start (ln : String → Bool) (sents : List Sent) :
    (mergedOf ln sents).Pairwise (fun a b => a.window_start < b.window_start) := by
  refine (mergedOf_pairwise ln sents).imp_of_mem ?_
  intro a b ha _ hab
  have := (mergedOf_bounded ln sents a ha).1
  omega

theorem hitsFrom_mem (ln : String → Bool) (N : Nat) :
    ∀ (ss : List Sent) (j i : Nat) (hi : i < ss.length),
      (sentenceData ln (ss.get ⟨i, hi⟩)).1 ≠ 0 →
      (⟨j + i - CONTEXT, min N (j + i + CONTEXT + 1),
        (sentenceData ln (ss.get ⟨i, hi⟩)).1,
        (sentenceData ln (ss.get ⟨i, hi⟩)).2⟩ : Hit) ∈ hitsFrom ln N j ss := by
  intro ss
  induction ss with
  | nil => intro j i hi; simp at hi
  | cons s rest ih =>
    intro j i hi hns
    unfold hitsFrom
    cases i with
    | zero =>
      refine List.mem_append.mpr (Or.inl ?_)
      rw [if_pos (show (sentenceData ln s).1 ≠ 0 from hns)]
      refine List.mem_singleton.mpr ?_
      show (⟨j + 0 - CONTEXT, min N (j + 0 + CONTEXT + 1),
        (sentenceData ln s).1, (sentenceData ln s).2⟩ : Hit) = _
      norm_num
    | succ m =>
      refine List.mem_append.mpr (Or.inr ?_)
      have hm : m < rest.length := by simp at hi; omega
      have hx := ih (j + 1) m hm
        (show (sentenceData ln (rest.get ⟨m, hm⟩)).1 ≠ 0 from hns)
      have harith : j + (m + 1) = j + 1 + m := by omega
      rw [harith]
      exact hx

theorem hitsFrom_zero (ln : String → Bool) (N : Nat) :
    ∀ (ss : List Sent) (j : Nat), (∀ s ∈ ss, (sentenceData ln s).1 = 0) →
      hitsFrom ln N j ss = [] := by
  intro ss
  induction ss with
  | nil => intro j _; rfl
  | cons s rest ih =>
    intro j hz
    unfold hitsFrom
    rw [if_neg (not_ne_iff.mpr (hz s (List.mem_cons_self s rest)))]
    rw [ih (j + 1) (fun x hx => hz x (List.mem_cons_of_mem s hx))]
    rfl

theorem filterMap_classify (f : Hit → Nat × List String) (lab : String) :
    ∀ l : List Hit,
      (l.filterMap fun r => if classify r.tags = lab then some (f r) else none) =
        (l.filter fun r => classify r.tags == lab).map f := by
  intro l
  induction l with
  | nil => rfl
  | cons a t ih =>
    by_cases h : classify a.tags = lab
    · simp [List.filterMap_cons, List.filter_cons, h, ih]
    · simp [List.filterMap_cons, List.filter_cons, h, ih]

theorem foldl_addInsert (l : List Tag) :
    ∀ p : Nat × Finset Tag,
      l.foldl (fun acc mid => (acc.1 + 4, insert mid acc.2)) p =
        (p.1 + 4 * l.length, p.2 ∪ l.toFinset) := by
  induction l with
  | nil => intro p; simp
  | cons a t ih =>
    intro p
    rw [List.foldl_cons, ih]
    refine Prod.ext ?_ ?_
    · show p.1 + 4 + 4 * t.length = p.1 + 4 * (a :: t).length
      simp [List.length_cons]
      omega
    · show insert a p.2 ∪ t.toFinset = p.2 ∪ (a :: t).toFinset
      simp [List.toFinset_cons, Finset.insert_union, Finset.union_insert]

theorem toFinset_replicate (n : Nat) (a : Tag) :
    (List.replicate n a).toFinset = if n = 0 then (∅ : Finset Tag) else {a} := by
  induction n with
  | zero => simp
  | succ m ih =>
    rw [List.replicate_succ, List.toFinset_cons, ih]
    by_cases hm : m = 0 <;> simp [hm]

theorem matcherHits_length (ln : String → Bool) (toks : List String) :
    (matcherHits ln toks).length =
      countMatches (patMEASUREMENT ln) toks +
        (countMatches (patRANGE1 ln) toks + countMatches (patRANGE2 ln) toks) +
        countMatches (patRATIO_P ln) toks := by
  simp [matcherHits]
  omega

theorem tagNe1 : (Tag.STATIONARY = Tag.SOLVENT) = False := eq_false (by decide)

theorem tagNe2 : (Tag.CRITICAL = Tag.SOLVENT) = False := eq_false (by decide)

theorem tagNe3 : (Tag.SAMPLE = Tag.SOLVENT) = False := eq_false (by decide)

theorem tagEq4 : (Tag.SOLVENT = Tag.SOLVENT) = True := eq_true rfl

set_option maxHeartbeats 2000000 in
theorem sentenceData_eq (ln : String → Bool) (s : Sent) :
    sentenceData ln s =
      (vocabScore s + patScore ln s + tableScore s,
        vocabTags s ∪ patTags ln s ∪ tableTags s) := by
  unfold sentenceData vocabScore patScore tableScore vocabTags patTags tableTags vocabHit
  simp only [VOCAB, List.foldl_cons, List.foldl_nil]
  rw [foldl_addInsert]
  by_cases h1 : stationaryWords.any (fun w => substrIn w.data (lowerStr s.text).data) = true <;>
    by_cases h2 : criticalWords.any (fun w => substrIn w.data (lowerStr s.text).data) = true <;>
    by_cases h3 : sampleWords.any (fun w => substrIn w.data (lowerStr s.text).data) = true <;>
    by_cases h4 : solventWords.any (fun w => substrIn w.data (lowerStr s.text).data) = true <;>
    by_cases h5 : looks_like_table (pyStrip s.text) = true
  all_goals simp only [h1, h2, h3, h4, h5, if_true, if_false, ite_true, ite_false,
    Bool.false_eq_true, matcherHits_length, tagNe1, tagNe2, tagNe3, tagEq4]
  all_goals refine Prod.ext ?_ ?_
  all_goals dsimp only
  all_goals try omega
  all_goals (ext x; simp; try tauto)

theorem hlCond_klen {k : List Char} {p : Bool} {t : List Char}
    (hc : hlCond k p t = true) : 1 ≤ k.length := by
  simp only [hlCond, Bool.and_eq_true, bne_iff_ne, ne_eq] at hc
  have := hc.1.1.1
  omega

theorem hlRun_fuel (k : List Char) :
    ∀ (f g : Nat) (p : Bool) (t : List Char), t.length ≤ f → t.length ≤ g →
      hlRun k f p t = hlRun k g p t := by
  intro f
  induction f with
  | zero =>
    intro g p t hf _
    have ht : t = [] := List.length_eq_zero.mp (Nat.le_zero.mp hf)
    subst ht
    cases g <;> simp [hlRun]
  | succ f ih =>
    intro g p t hf hg
    cases t with
    | nil => cases g <;> simp [hlRun]
    | cons c cs =>
      cases g with
      | zero => simp at hg
      | succ g' =>
        simp only [hlRun]
        by_cases hc : hlCond k p (c :: cs) = true
        · rw [if_pos hc, if_pos hc]
          have hk := hlCond_klen hc
          have hlen : cs.length + 1 ≤ f + 1 := by simpa using hf
          have hlen' : cs.length + 1 ≤ g' + 1 := by simpa using hg
          have hd : (List.drop k.length (c :: cs)).length ≤ f := by
            simp [List.length_drop]
            omega
          have hd' : (List.drop k.length (c :: cs)).length ≤ g' := by
            simp [List.length_drop]
            omega
          rw [ih g' true (List.drop k.length (c :: cs)) hd hd']
        · rw [if_neg hc, if_neg hc]
          have hlen : cs.length + 1 ≤ f + 1 := by simpa using hf
          have hlen' : cs.length + 1 ≤ g' + 1 := by simpa using hg
          rw [ih g' (isWordChar c) cs (by omega) (by omega)]

theorem hlPass_cons (k : List Char) (p : Bool) (c : Char) (cs : List Char) :
    hlPass k p (c :: cs) =
      if hlCond k p (c :: cs) then
        '[' :: '[' :: (List.take k.length (c :: cs) ++
          ']' :: ']' :: hlPass k true (List.drop k.length (c :: cs)))
      else c :: hlPass k (isWordChar c) cs := by
  show hlRun k (cs.length + 1) p (c :: cs) = _
  simp only [hlRun]
  by_cases hc : hlCond k p (c :: cs) = true
  · rw [if_pos hc, if_pos hc]
    have hk := hlCond_klen hc
    have : hlRun k cs.length true (List.drop k.length (c :: cs)) =
        hlPass k true (List.drop k.length (c :: cs)) := by
      apply hlRun_fuel
      · simp [List.length_drop]
        omega
      · exact le_refl _
    rw [this]
  · rw [if_neg hc, if_neg hc]
    rfl

theorem hlRun_length_le (k : List Char) :
    ∀ (f : Nat) (p : Bool) (t : List Char), t.length ≤ f →
      t.length ≤ (hlRun k f p t).length := by
  intro f
  induction f with
  | zero =>
    intro p t hf
    have ht : t = [] := List.length_eq_zero.mp (Nat.le_zero.mp hf)
    subst ht
    simp [hlRun]
  | succ f ih =>
    intro p t hf
    cases t with
    | nil => simp [hlRun]
    | cons c cs =>
      have hlen : cs.length + 1 ≤ f + 1 := by simpa using hf
      simp only [hlRun]
      by_cases hc : hlCond k p (c :: cs) = true
      · rw [if_pos hc]
        have hk := hlCond_klen hc
        have hd : (List.drop k.length (c :: cs)).length ≤ f := by
          simp [List.length_drop]
          omega
        have hrec := ih true (List.drop k.length (c :: cs)) hd
        simp only [List.length_cons, List.length_append, List.length_take,
          List.length_drop] at hrec ⊢
        omega
      · rw [if_neg hc]
        have hrec := ih (isWordChar c) cs (by omega)
        simp only [List.length_cons]
        omega

theorem hlRun_dichotomy (k : List Char) :
    ∀ (f : Nat) (p : Bool) (t : List Char), t.length ≤ f →
      hlRun k f p t = t ∨ t.length < (hlRun k f p t).length := by
  intro f
  induction f with
  | zero =>
    intro p t hf
    have ht : t = [] := List.length_eq_zero.mp (Nat.le_zero.mp hf)
    subst ht
    left
    rfl
  | succ f ih =>
    intro p t hf
    cases t with
    | nil => left; rfl
    | cons c cs =>
      have hlen : cs.length + 1 ≤ f + 1 := by simpa using hf
      simp only [hlRun]
      by_cases hc : hlCond k p (c :: cs) = true
      · rw [if_pos hc]
        right
        have hk := hlCond_klen hc
        have hd : (List.drop k.length (c :: cs)).length ≤ f := by
          simp [List.length_drop]
          omega
        have hrec := hlRun_length_le k f true (List.drop k.length (c :: cs)) hd
        simp only [List.length_cons, List.length_append, List.length_take,
          List.length_drop] at hrec ⊢
        omega
      · rw [if_neg hc]
        rcases ih (isWordChar c) cs (by omega) with heq | hlt
        · left
          rw [heq]
        · right
          simp only [List.length_cons]
          omega

theorem hlRun_hasHit_lt (k : List Char) :
    ∀ (f : Nat) (p : Bool) (t : List Char), t.length ≤ f →
      hasHit k p t = true → t.length < (hlRun k f p t).length := by
  intro f
  induction f with
  | zero =>
    intro p t hf hh
    have ht : t = [] := List.length_eq_zero.mp (Nat.le_zero.mp hf)
    subst ht
    simp [hasHit] at hh
  | succ f ih =>
    intro p t hf hh
    cases t with
    | nil => simp [hasHit] at hh
    | cons c cs =>
      have hlen : cs.length + 1 ≤ f + 1 := by simpa using hf
      simp only [hlRun]
      by_cases hc : hlCond k p (c :: cs) = true
      · rw [if_pos hc]
        have hk := hlCond_klen hc
        have hd : (List.drop k.length (c :: cs)).length ≤ f := by
          simp [List.length_drop]
          omega
        have hrec := hlRun_length_le k f true (List.drop k.length (c :: cs)) hd
        simp only [List.length_cons, List.length_append, List.length_take,
          List.length_drop] at hrec ⊢
        omega
      · rw [if_neg hc]
        have hh' : hasHit k (isWordChar c) cs = true := by
          simp only [hasHit, Bool.or_eq_true] at hh
          rcases hh with hh | hh
          · exact absurd hh hc
          · exact hh
        have hrec := ih (isWordChar c) cs (by omega) hh'
        simp only [List.length_cons]
        omega

theorem hlRun_noHit (k : List Char) :
    ∀ (f : Nat) (p : Bool) (t : List Char), t.length ≤ f →
      hasHit k p t = false → hlRun k f p t = t := by
  intro f
  induction f with
  | zero =>
    intro p t hf _
    have ht : t = [] := List.length_eq_zero.mp (Nat.le_zero.mp hf)
    subst ht
    rfl
  | succ f ih =>
    intro p t hf hh
    cases t with
    | nil => rfl
    | cons c cs =>
      have hlen : cs.length + 1 ≤ f + 1 := by simpa using hf
      simp only [hasHit, Bool.or_eq_false_iff] at hh
      simp only [hlRun]
      rw [if_neg (by simp [hh.1])]
      rw [ih (isWordChar c) cs (by omega) hh.2]

theorem foldl_pass_id :
    ∀ (ks : List String) (t : String),
      (∀ k ∈ ks, hasHit k.data false t.data = false) →
      ks.foldl (fun acc k => (⟨hlPass k.data false acc.data⟩ : String)) t = t := by
  intro ks
  induction ks with
  | nil => intro t _; rfl
  | cons k ks ih =>
    intro t h
    have hid : hlPass k.data false t.data = t.data :=
      hlRun_noHit k.data t.data.length false t.data (le_refl _)
        (h k (List.mem_cons_self k ks))
    simp only [List.foldl_cons]
    have hstr : (⟨hlPass k.data false t.data⟩ : String) = t := by rw [hid]
    rw [hstr]
    exact ih t (fun x hx => h x (List.mem_cons_of_mem k hx))

theorem foldl_pass_mono :
    ∀ (ks : List String) (t : String),
      t.data.length ≤
        ((ks.foldl (fun acc k => (⟨hlPass k.data false acc.data⟩ : String)) t)).data.length := by
  intro ks
  induction ks with
  | nil => intro t; exact le_refl _
  | cons k ks ih =>
    intro t
    have h1 : t.data.length ≤ (hlPass k.data false t.data).length :=
      hlRun_length_le k.data t.data.length false t.data (le_refl _)
    have h2 := ih (⟨hlPass k.data false t.data⟩ : String)
    simp only [List.foldl_cons]
    exact le_trans h1 h2

theorem foldl_pass_lt :
    ∀ (ks : List String) (t : String),
      (∃ k ∈ ks, hasHit k.data false t.data = true) →
      t.data.length <
        ((ks.foldl (fun acc k => (⟨hlPass k.data false acc.data⟩ : String)) t)).data.length := by
  intro ks
  induction ks with
  | nil => intro t h; simp at h
  | cons k ks ih =>
    intro t h
    obtain ⟨k', hk', hh⟩ := h
    simp only [List.foldl_cons]
    rcases List.mem_cons.mp hk' with hkk | hmem
    · subst hkk
      have h1 : t.data.length < (hlPass k'.data false t.data).length :=
        hlRun_hasHit_lt k'.data t.data.length false t.data (le_refl _) hh
      have h2 := foldl_pass_mono ks (⟨hlPass k'.data false t.data⟩ : String)
      exact lt_of_lt_of_le h1 h2
    · rcases hlRun_dichotomy k.data t.data.length false t.data (le_refl _) with heq | hlt
      · have hstr : (⟨hlPass k.data false t.data⟩ : String) = t := by
          show (⟨hlRun k.data t.data.length false t.data⟩ : String) = t
          rw [heq]
        rw [hstr]
        exact ih t ⟨k', hmem, hh⟩
      · have h2 := foldl_pass_mono ks (⟨hlPass k.data false t.data⟩ : String)
        have h1 : t.data.length < (hlPass k.data false t.data).length := hlt
        exact lt_of_lt_of_le h1 h2

theorem highlight_eq_self_iff (t : String) :
    highlight t = t ↔ ∀ k ∈ sortedKeywords, hasHit k.data false t.data = false := by
  constructor
  · intro h
    by_contra hex
    push_neg at hex
    obtain ⟨k, hk, hne⟩ := hex
    have hh : hasHit k.data false t.data = true := by
      cases hb : hasHit k.data false t.data
      · exact absurd hb hne
      · rfl
    have hlt := foldl_pass_lt sortedKeywords t ⟨k, hk, hh⟩
    have : sortedKeywords.foldl
        (fun acc k => (⟨hlPass k.data false acc.data⟩ : String)) t = highlight t := rfl
    rw [this, h] at hlt
    exact lt_irrefl _ hlt
  · intro h
    exact foldl_pass_id sortedKeywords t h

theorem hlCond_ciMatch {k : List Char} {p : Bool} {t : List Char}
    (hc : hlCond k p t = true) : ciMatch k t = true := by
  simp only [hlCond, Bool.and_eq_true] at hc
  exact hc.1.2

theorem ciMatch_length : ∀ {k t : List Char}, ciMatch k t = true → k.length ≤ t.length := by
  intro k
  induction k with
  | nil => intro t _; simp
  | cons a k ih =>
    intro t hm
    cases t with
    | nil => simp [ciMatch] at hm
    | cons c cs =>
      simp only [ciMatch, Bool.and_eq_true] at hm
      have := ih hm.2
      simp only [List.length_cons]
      omega

theorem ciMatch_take_append :
    ∀ (k t X : List Char), ciMatch k t = true →
      ciMatch k (List.take k.length t ++ X) = true := by
  intro k
  induction k with
  | nil => intro t X _; rfl
  | cons a k ih =>
    intro t X hm
    cases t with
    | nil => simp [ciMatch] at hm
    | cons c cs =>
      simp only [ciMatch, Bool.and_eq_true] at hm
      simp only [List.length_cons, List.take_succ_cons, List.cons_append, ciMatch,
        Bool.and_eq_true]
      exact ⟨hm.1, ih cs X hm.2⟩

theorem length_take_ci {k t : List Char} (hm : ciMatch k t = true) :
    (List.take k.length t).length = k.length := by
  have := ciMatch_length hm
  simp [List.length_take]
  omega

theorem hasHit_wrap {k : List Char} {c : Char} {cs : List Char}
    (hc : hlCond k false (c :: cs) = true) :
    ∀ (q : Bool) (rec : List Char),
      hasHit k q ('[' :: '[' ::
        (List.take k.length (c :: cs) ++ ']' :: ']' :: rec)) = true := by
  intro q rec
  have hk := hlCond_klen hc
  have hm := hlCond_ciMatch hc
  have hY : hasHit k false (List.take k.length (c :: cs) ++ ']' :: ']' :: rec) = true := by
    obtain ⟨mc, m', hmc⟩ : ∃ mc m', List.take k.length (c :: cs) = mc :: m' := by
      cases htk : List.take k.length (c :: cs) with
      | nil =>
        exfalso
        have := congrArg List.length htk
        rw [length_take_ci hm] at this
        simp only [List.length_nil] at this
        omega
      | cons mc m' => exact ⟨mc, m', rfl⟩
    have hcond : hlCond k false (List.take k.length (c :: cs) ++ ']' :: ']' :: rec) = true := by
      have hci : ciMatch k (List.take k.length (c :: cs) ++ ']' :: ']' :: rec) = true :=
        ciMatch_take_append k (c :: cs) (']' :: ']' :: rec) hm
      have hdr : List.drop k.length
          (List.take k.length (c :: cs) ++ ']' :: ']' :: rec) = ']' :: ']' :: rec :=
        List.drop_left' (length_take_ci hm)
      have hkb : (k.length != 0) = true := by
        simp only [bne_iff_ne, ne_eq]
        omega
      unfold hlCond
      rw [hci, hdr, hkb]
      rfl
    rw [hmc] at hcond ⊢
    simp only [List.cons_append] at hcond ⊢
    simp only [hasHit, hcond, Bool.true_or]
  simp only [hasHit]
  have hw : isWordChar '[' = false := rfl
  rw [hw]
  simp [hY]

theorem hlRun_changed_hasHit (k : List Char) :
    ∀ (f : Nat) (p : Bool) (t : List Char), t.length ≤ f →
      hlRun k f p t ≠ t → ∀ q : Bool, hasHit k q (hlRun k f p t) = true := by
  intro f
  induction f with
  | zero =>
    intro p t hf hne
    have ht : t = [] := List.length_eq_zero.mp (Nat.le_zero.mp hf)
    subst ht
    exact absurd rfl hne
  | succ f ih =>
    intro p t hf hne
    cases t with
    | nil => exact absurd rfl hne
    | cons c cs =>
      have hlen : cs.length + 1 ≤ f + 1 := by simpa using hf
      simp only [hlRun] at hne ⊢
      by_cases hc : hlCond k p (c :: cs) = true
      · rw [if_pos hc] at hne ⊢
        intro q
        have hc' : hlCond k false (c :: cs) = true := by
          simp only [hlCond, Bool.and_eq_true] at hc ⊢
          exact ⟨⟨⟨hc.1.1.1, rfl⟩, hc.1.2⟩, hc.2⟩
        exact hasHit_wrap hc' q _
      · rw [if_neg hc] at hne ⊢
        have hrec : hlRun k f (isWordChar c) cs ≠ cs := by
          intro h
          exact hne (by rw [h])
        have hh := ih (isWordChar c) cs (by omega) hrec
        intro q
        simp only [hasHit, hh (isWordChar c), Bool.or_true]

theorem foldl_pass_changed :
    ∀ (ks : List String) (t : String),
      ks.foldl (fun acc k => (⟨hlPass k.data false acc.data⟩ : String)) t ≠ t →
      ∃ k ∈ ks, hasHit k.data false
        ((ks.foldl (fun acc k => (⟨hlPass k.data false acc.data⟩ : String)) t)).data
          = true := by
  intro ks
  induction ks with
  | nil => intro t h; exact absurd rfl h
  | cons k ks ih =>
    intro t hne
    simp only [List.foldl_cons] at hne ⊢
    by_cases hvu : ks.foldl (fun acc k => (⟨hlPass k.data false acc.data⟩ : String))
        (⟨hlPass k.data false t.data⟩ : String) =
        (⟨hlPass k.data false t.data⟩ : String)
    · have hut : (⟨hlPass k.data false t.data⟩ : String) ≠ t := fun h => hne (hvu.trans h)
      have hud : hlPass k.data false t.data ≠ t.data := by
        intro hd
        exact hut (by rw [hd])
      have hhit := hlRun_changed_hasHit k.data t.data.length false t.data (le_refl _)
        hud false
      refine ⟨k, List.mem_cons_self k ks, ?_⟩
      rw [hvu]
      exact hhit
    · obtain ⟨k', hk', hh⟩ := ih (⟨hlPass k.data false t.data⟩ : String) hvu
      exact ⟨k', List.mem_cons_of_mem k hk', hh⟩

theorem highlight_not_idem_of_changed (t : String) (h : highlight t ≠ t) :
    highlight (highlight t) ≠ highlight t := by
  obtain ⟨k, hk, hh⟩ := foldl_pass_changed sortedKeywords t h
  have hlt := foldl_pass_lt sortedKeywords (highlight t) ⟨k, hk, hh⟩
  intro heq
  have hfold : sortedKeywords.foldl
      (fun acc k => (⟨hlPass k.data false acc.data⟩ : String)) (highlight t) =
      highlight (highlight t) := rfl
  rw [hfold, heq] at hlt
  exact lt_irrefl _ hlt

/-!  Claim theorems. -/

/-- C1: every sentence with nonzero total score at index `i` in a
document of `N` sentences yields a Hit with window
`[max(0, i-2), min(N, i+2+1))`; the merge pass sorts hits ascending by
window start with ties by window end, and then appends a hit as a new
region exactly when the output is empty or its window start is strictly
greater than the last region's window end, and otherwise merges it into
the last region with the end and score taken as maxima and the tags as
the union. -/
theorem C1_window_build_and_merge :
    (∀ (ln : String → Bool) (sents : List Sent) (i : Nat) (hi : i < sents.length),
        (sentenceData ln (sents.get ⟨i, hi⟩)).1 ≠ 0 →
        (⟨i - CONTEXT, min sents.length (i + CONTEXT + 1),
          (sentenceData ln (sents.get ⟨i, hi⟩)).1,
          (sentenceData ln (sents.get ⟨i, hi⟩)).2⟩ : Hit) ∈ hitsOf ln sents) ∧
    (∀ N i : Nat, ((i - CONTEXT : Nat) : Int) = max 0 ((i : Int) - 2) ∧
        ((min N (i + CONTEXT + 1) : Nat) : Int) = min (N : Int) ((i : Int) + 2 + 1)) ∧
    (∀ hits : List Hit, List.Sorted startEndLE (sortHits hits) ∧
        List.Perm (sortHits hits) hits) ∧
    (∀ h : Hit, mergeStep [] h = [h]) ∧
    (∀ (acc : List Hit) (l h : Hit), acc.getLast? = some l →
        (l.window_end < h.window_start → mergeStep acc h = acc ++ [h]) ∧
        (h.window_start ≤ l.window_end →
          mergeStep acc h = acc.dropLast ++
            [⟨l.window_start, max l.window_end h.window_end,
              max l.score h.score, l.tags ∪ h.tags⟩])) := by
  refine ⟨?_, ?_, ?_, ?_, ?_⟩
  · intro ln sents i hi hns
    have hm := hitsFrom_mem ln sents.length sents 0 i hi hns
    simpa [hitsOf] using hm
  · intro N i
    constructor
    · simp only [CONTEXT]
      omega
    · simp only [CONTEXT]
      omega
  · exact fun hits => ⟨sortHits_sorted_startEnd hits, sortHits_perm hits⟩
  · intro h
    rfl
  · intro acc l h hlast
    constructor
    · intro hlt
      unfold mergeStep
      rw [hlast]
      exact if_pos hlt
    · intro hle
      unfold mergeStep
      rw [hlast]
      exact if_neg (by omega)

/-- Witness for C1 at concrete inputs: the single-sentence document
"water" produces its clamped window hit, the window arithmetic at
`N = 1, i = 0`, and the three merge-step behaviours at concrete
regions. -/
theorem C1_window_build_and_merge_witness :
    (⟨0 - CONTEXT, min 1 (0 + CONTEXT + 1),
      (sentenceData pyLikeNum ⟨("water"), []⟩).1,
      (sentenceData pyLikeNum ⟨("water"), []⟩).2⟩ : Hit) ∈
        hitsOf pyLikeNum [⟨("water"), []⟩] ∧
    ((0 - CONTEXT : Nat) : Int) = max 0 ((0 : Int) - 2) ∧
    mergeStep [] (⟨0, 3, 5, ∅⟩ : Hit) = [⟨0, 3, 5, ∅⟩] ∧
    mergeStep [(⟨0, 3, 5, ∅⟩ : Hit)] (⟨4, 6, 2, {Tag.TABLE}⟩ : Hit) =
      [(⟨0, 3, 5, ∅⟩ : Hit)] ++ [(⟨4, 6, 2, {Tag.TABLE}⟩ : Hit)] ∧
    mergeStep [(⟨0, 3, 5, ∅⟩ : Hit)] (⟨2, 6, 2, {Tag.TABLE}⟩ : Hit) =
      [(⟨0, 3, 5, ∅⟩ : Hit)].dropLast ++
        [⟨0, max 3 6, max 5 2, (∅ : Finset Tag) ∪ {Tag.TABLE}⟩] := by
  refine ⟨?_, ?_, ?_, ?_, ?_⟩
  · exact C1_window_build_and_merge.1 pyLikeNum [⟨("water"), []⟩] 0 (by decide) (by decide)
  · exact (C1_window_build_and_merge.2.1 1 0).1
  · exact C1_window_build_and_merge.2.2.2.1 _
  · exact (C1_window_build_and_merge.2.2.2.2 [⟨0, 3, 5, ∅⟩] ⟨0, 3, 5, ∅⟩
      ⟨4, 6, 2, {Tag.TABLE}⟩ rfl).1 (by decide)
  · exact (C1_window_build_and_merge.2.2.2.2 [⟨0, 3, 5, ∅⟩] ⟨0, 3, 5, ∅⟩
      ⟨2, 6, 2, {Tag.TABLE}⟩ rfl).2 (by decide)

/-- C2: for every sentence, the accumulated score is exactly the sum
of `+3` per matching non-SOLVENT vocabulary category, `+2` for a
SOLVENT match, `+4` per pattern-match occurrence (occurrences repeat,
the tag is recorded only once in the tag set), and `+3` when the table
heuristic fires; the tag set is correspondingly the union of the three
sources. -/
theorem C2_score_decomposition (ln : String → Bool) (s : Sent) :
    (sentenceData ln s).1 =
      ((if vocabHit (lowerStr s.text) stationaryWords then 3 else 0) +
        (if vocabHit (lowerStr s.text) criticalWords then 3 else 0) +
        (if vocabHit (lowerStr s.text) sampleWords then 3 else 0) +
        (if vocabHit (lowerStr s.text) solventWords then 2 else 0)) +
      4 * (countMatches (patMEASUREMENT ln) s.toks +
        (countMatches (patRANGE1 ln) s.toks + countMatches (patRANGE2 ln) s.toks) +
        countMatches (patRATIO_P ln) s.toks) +
      (if looks_like_table (pyStrip s.text) then 3 else 0) ∧
    (sentenceData ln s).2 = vocabTags s ∪ patTags ln s ∪ tableTags s := by
  rw [sentenceData_eq]
  exact ⟨rfl, rfl⟩

/-- C3: `classify` is a total deterministic function from tag sets to
the five labels, evaluated as an ordered priority list independent of
score. -/
theorem C3_classify_total_priority (tags : Finset Tag) :
    classify tags ∈ labels5 ∧
    (({Tag.CRITICAL, Tag.NUMERIC_RANGE} : Finset Tag) ⊆ tags →
      classify tags = "CONFIRMED CRITICAL RANGES") ∧
    (¬ ({Tag.CRITICAL, Tag.NUMERIC_RANGE} : Finset Tag) ⊆ tags →
      ({Tag.SAMPLE, Tag.NUMERIC_RANGE} : Finset Tag) ⊆ tags →
      classify tags = "USED / SAMPLE RANGES") ∧
    (¬ ({Tag.CRITICAL, Tag.NUMERIC_RANGE} : Finset Tag) ⊆ tags →
      ¬ ({Tag.SAMPLE, Tag.NUMERIC_RANGE} : Finset Tag) ⊆ tags →
      Tag.SOLVENT ∈ tags → classify tags = "SOLVENT COMPOSITION") ∧
    (¬ ({Tag.CRITICAL, Tag.NUMERIC_RANGE} : Finset Tag) ⊆ tags →
      ¬ ({Tag.SAMPLE, Tag.NUMERIC_RANGE} : Finset Tag) ⊆ tags →
      Tag.SOLVENT ∉ tags → Tag.TABLE ∈ tags →
      classify tags = "TABLE / NUMERIC DATA") ∧
    (¬ ({Tag.CRITICAL, Tag.NUMERIC_RANGE} : Finset Tag) ⊆ tags →
      ¬ ({Tag.SAMPLE, Tag.NUMERIC_RANGE} : Finset Tag) ⊆ tags →
      Tag.SOLVENT ∉ tags → Tag.TABLE ∉ tags →
      classify tags = "OTHER RELEVANT INFORMATION") ∧
    (∀ tags' : Finset Tag, tags = tags' → classify tags = classify tags') := by
  refine ⟨?_, ?_, ?_, ?_, ?_, ?_, ?_⟩
  · unfold classify
    split_ifs <;> simp [labels5]
  · intro h1
    unfold classify
    rw [if_pos h1]
  · intro h1 h2
    unfold classify
    rw [if_neg h1, if_pos h2]
  · intro h1 h2 h3
    unfold classify
    rw [if_neg h1, if_neg h2, if_pos h3]
  · intro h1 h2 h3 h4
    unfold classify
    rw [if_neg h1, if_neg h2, if_neg h3, if_pos h4]
  · intro h1 h2 h3 h4
    unfold classify
    rw [if_neg h1, if_neg h2, if_neg h3, if_neg h4]
  · intro tags' ht
    rw [ht]

/-- Witness for C3: the tag set `{CRITICAL, NUMERIC_RANGE}` is
classified under the first priority rule. -/
theorem C3_classify_total_priority_witness :
    classify {Tag.CRITICAL, Tag.NUMERIC_RANGE} = "CONFIRMED CRITICAL RANGES" :=
  (C3_classify_total_priority {Tag.CRITICAL, Tag.NUMERIC_RANGE}).2.1 (by decide)

theorem any_digit_dropWhile (l : List Char) :
    ((l.dropWhile isPySpace).any Char.isDigit) = l.any Char.isDigit := by
  induction l with
  | nil => rfl
  | cons c cs ih =>
    by_cases h : isPySpace c = true
    · have hd : c.isDigit = false := by
        simp only [isPySpace, Bool.or_eq_true, beq_iff_eq] at h
        rcases h with ((((h | h) | h) | h) | h) | h <;> subst h <;> rfl
      rw [List.dropWhile_cons, if_pos h, ih]
      simp [List.any_cons, hd]
    · rw [List.dropWhile_cons, if_neg h]

theorem pyStrip_any_digit (s : String) :
    (pyStrip s).data.any Char.isDigit = s.data.any Char.isDigit := by
  show (((s.data.dropWhile isPySpace).reverse.dropWhile isPySpace).reverse).any
      Char.isDigit = _
  rw [List.any_reverse, any_digit_dropWhile, List.any_reverse, any_digit_dropWhile]

theorem table_not_mem_vocabTags (s : Sent) : Tag.TABLE ∉ vocabTags s := by
  unfold vocabTags
  split_ifs <;> simp

theorem table_not_mem_patTags (ln : String → Bool) (s : Sent) :
    Tag.TABLE ∉ patTags ln s := by
  unfold patTags matcherHits
  simp [List.mem_toFinset, List.mem_append, List.mem_replicate]

/-- C4 counterexample: the sentence text "  1x" contains a digit and
two consecutive spaces in its raw text (the claimed firing condition),
yet the heuristic does not fire — no `TABLE` tag and a zero score —
because the code tests the stripped text `"1x"`. -/
theorem C4_counterexample :
    ((("  1x").data.any Char.isDigit) &&
      (substrIn (("  ").data) ("  1x").data || ("  1x").data.contains '\t')) = true ∧
    Tag.TABLE ∉ (sentenceData pyLikeNum ⟨("  1x"), []⟩).2 ∧
    (sentenceData pyLikeNum ⟨("  1x"), []⟩).1 = 0 := by
  refine ⟨by decide, by decide, by decide⟩

/-- C4 (amended): the table heuristic fires (tag `TABLE`, `+3`) iff
the raw text contains at least one digit AND the whitespace-stripped
text contains two consecutive spaces or a tab (the digit test is
unaffected by stripping; the whitespace test is applied to the
stripped text). -/
theorem C4_table_heuristic_amended (ln : String → Bool) (s : Sent) :
    (Tag.TABLE ∈ (sentenceData ln s).2 ↔
      ((s.text.data.any Char.isDigit) &&
        (substrIn (("  ").data) (pyStrip s.text).data ||
          (pyStrip s.text).data.contains '\t')) = true) ∧
    (sentenceData ln s).1 =
      vocabScore s + patScore ln s +
        (if (s.text.data.any Char.isDigit) &&
            (substrIn (("  ").data) (pyStrip s.text).data ||
              (pyStrip s.text).data.contains '\t') then 3 else 0) := by
  have hl : looks_like_table (pyStrip s.text) =
      ((s.text.data.any Char.isDigit) &&
        (substrIn (("  ").data) (pyStrip s.text).data ||
          (pyStrip s.text).data.contains '\t')) := by
    unfold looks_like_table
    rw [pyStrip_any_digit]
  constructor
  · rw [sentenceData_eq]
    show Tag.TABLE ∈ vocabTags s ∪ patTags ln s ∪ tableTags s ↔ _
    unfold tableTags
    rw [hl]
    constructor
    · intro hmem
      rcases Finset.mem_union.mp hmem with hmem | hmem
      · rcases Finset.mem_union.mp hmem with hmem | hmem
        · exact absurd hmem (table_not_mem_vocabTags s)
        · exact absurd hmem (table_not_mem_patTags ln s)
      · by_cases hb : ((s.text.data.any Char.isDigit) &&
            (substrIn (("  ").data) (pyStrip s.text).data ||
              (pyStrip s.text).data.contains '\t')) = true
        · exact hb
        · rw [if_neg hb] at hmem
          simp at hmem
    · intro hb
      refine Finset.mem_union.mpr (Or.inr ?_)
      rw [if_pos hb]
      simp
  · rw [sentenceData_eq]
    show vocabScore s + patScore ln s + tableScore s = _
    unfold tableScore
    rw [hl]

set_option maxRecDepth 40000 in
/-- C5 counterexample: re-applying `highlight` to the already
highlighted text of "water" wraps the keyword again, so `highlight` is
not idempotent. -/
theorem C5_counterexample :
    highlight (highlight ("water")) ≠ highlight ("water") := by decide

/-- C5 (amended): `highlight` never wraps a partial word — a text in
which no keyword has a word-boundary-anchored case-insensitive
occurrence is returned unchanged, and `highlight t = t` holds exactly
when there is no such occurrence; idempotence however holds precisely
on the texts that `highlight` leaves unchanged: on every text it
modifies, re-applying it wraps a keyword again (the inserted markers
are non-word characters, so the wrapped keyword is still
boundary-anchored). -/
theorem C5_highlight_amended (t : String) :
    (highlight t = t ↔ ∀ k ∈ sortedKeywords, hasHit k.data false t.data = false) ∧
    (highlight (highlight t) = highlight t ↔ highlight t = t) := by
  refine ⟨highlight_eq_self_iff t, ?_, ?_⟩
  · intro hidem
    by_contra hne
    exact highlight_not_idem_of_changed t hne hidem
  · intro h
    rw [h]
    exact h

/-- Witness for C5 at the text "seconds": the keyword "sec" occurs
only inside a larger word, so nothing is highlighted and the
idempotence clause applies. -/
theorem C5_highlight_amended_witness :
    highlight ("seconds") = ("seconds") ∧
    highlight (highlight ("seconds")) = highlight ("seconds") := by
  have h : highlight ("seconds") = ("seconds") :=
    (C5_highlight_amended ("seconds")).1.mpr (by decide)
  exact ⟨h, (C5_highlight_amended ("seconds")).2.mpr h⟩

/-- C6: the merge pass is order independent — permuting the hit list
before the sort-and-sweep does not change the resulting region list. -/
theorem C6_merge_order_independent (l l' : List Hit) (h : List.Perm l l') :
    mergeHits l = mergeHits l' := by
  unfold mergeHits
  rw [sortHits_congr h]

/-- Witness for C6: two overlapping hits given in either order merge
to the same single region. -/
theorem C6_merge_order_independent_witness :
    List.Perm [(⟨0, 3, 2, ∅⟩ : Hit), ⟨1, 4, 7, {Tag.SOLVENT}⟩]
      [(⟨1, 4, 7, {Tag.SOLVENT}⟩ : Hit), ⟨0, 3, 2, ∅⟩] ∧
    mergeHits [(⟨0, 3, 2, ∅⟩ : Hit), ⟨1, 4, 7, {Tag.SOLVENT}⟩] =
      mergeHits [(⟨1, 4, 7, {Tag.SOLVENT}⟩ : Hit), ⟨0, 3, 2, ∅⟩] := by
  refine ⟨by decide, ?_⟩
  exact C6_merge_order_independent _ _ (by decide)

/-- C7: merged regions are disjoint (each region's start is strictly
greater than the previous region's end), appear in ascending start
order, the per-label output lists preserve that ascending order, and
within a region the context lines are rendered over a strictly
increasing index list. -/
theorem C7_region_ordering (ln : String → Bool) (sents : List Sent) :
    (mergedOf ln sents).Chain' (fun a b => a.window_end < b.window_start) ∧
    (mergedOf ln sents).Pairwise (fun a b => a.window_start < b.window_start) ∧
    (∀ lab : String,
      ((mergedOf ln sents).filter (fun r => classify r.tags == lab)).Pairwise
        (fun a b => a.window_start < b.window_start)) ∧
    (∀ lab : String,
      analyze ln sents lab =
        ((mergedOf ln sents).filter (fun r => classify r.tags == lab)).map
          (fun r => (r.score, render sents r.window_start r.window_end))) ∧
    (∀ a b : Nat,
      render sents a b = (List.range' a (b - a)).map
        (fun i => highlight (pyStrip ((sents.getD i default).text))) ∧
      (List.range' a (b - a)).Chain' (· < ·)) := by
  refine ⟨mergedOf_chain ln sents, mergedOf_pairwise_start ln sents, ?_, ?_, ?_⟩
  · intro lab
    exact (mergedOf_pairwise_start ln sents).sublist (List.filter_sublist _)
  · intro lab
    unfold analyze
    exact filterMap_classify _ lab _
  · intro a b
    exact ⟨rfl, (List.pairwise_lt_range' a (b - a)).chain'⟩

/-- C8: an empty document, and a document in which no sentence scores,
both produce an empty output mapping (every label maps to the empty
list), with no failure. -/
theorem C8_degenerate_inputs (ln : String → Bool) :
    (∀ lab : String, analyze ln [] lab = []) ∧
    (∀ sents : List Sent, (∀ s ∈ sents, (sentenceData ln s).1 = 0) →
      ∀ lab : String, analyze ln sents lab = []) := by
  have hempty : ∀ sents : List Sent, hitsOf ln sents = [] →
      ∀ lab : String, analyze ln sents lab = [] := by
    intro sents h lab
    unfold analyze mergedOf mergeHits
    rw [h]
    rfl
  constructor
  · exact hempty [] rfl
  · intro sents hz lab
    exact hempty sents (hitsFrom_zero ln sents.length sents 0 hz) lab

/-- Witness for C8: the one-sentence document "hello" scores nowhere
and its output under every label (here "SOLVENT COMPOSITION") is
empty. -/
theorem C8_degenerate_inputs_witness :
    analyze pyLikeNum [⟨("hello"), []⟩] ("SOLVENT COMPOSITION") = [] :=
  (C8_degenerate_inputs pyLikeNum).2 [⟨("hello"), []⟩] (by decide)
    ("SOLVENT COMPOSITION")

set_option maxRecDepth 200000 in
/-- C9: on the single sentence "The pore size was specified as 50-100
nm." (with its spaCy tokenization) the pipeline produces one region
with score `14 = 3 + 3 + 4 + 4` (STATIONARY + CRITICAL +
NUMERIC_RANGE + MEASUREMENT), whose tag set contains those four tags,
classified "CONFIRMED CRITICAL RANGES". -/
theorem C9_end_to_end_scenario :
    mergedOf pyLikeNum [c9sent] = [⟨0, 1, 14, c9tags⟩] ∧
    vocabScore c9sent = 3 + 3 ∧
    patScore pyLikeNum c9sent = 4 + 4 ∧
    tableScore c9sent = 0 ∧
    ({Tag.STATIONARY, Tag.CRITICAL, Tag.NUMERIC_RANGE, Tag.MEASUREMENT} :
      Finset Tag) ⊆ c9tags ∧
    classify c9tags = "CONFIRMED CRITICAL RANGES" := by decide

/-- C10: every merged region `[a, b)` over a document of `N` sentences
satisfies `a < b ≤ N`, so each rendered index is in bounds and the
region spans at least one sentence. -/
theorem C10_region_bounds (ln : String → Bool) (sents : List Sent) :
    ∀ r ∈ mergedOf ln sents,
      r.window_start < r.window_end ∧ r.window_end ≤ sents.length ∧
      ∀ i : Nat, r.window_start ≤ i → i < r.window_end → i < sents.length := by
  intro r hr
  have hb := mergedOf_bounded ln sents r hr
  exact ⟨hb.1, hb.2, fun i _ hi2 => lt_of_lt_of_le hi2 hb.2⟩

set_option maxRecDepth 200000 in
/-- Witness for C10: the region produced for the scenario sentence is
in bounds. -/
theorem C10_region_bounds_witness :
    (0 : Nat) < 1 ∧ 1 ≤ ([c9sent] : List Sent).length ∧
      (0 : Nat) < ([c9sent] : List Sent).length := by
  have h := C10_region_bounds pyLikeNum [c9sent] ⟨0, 1, 14, c9tags⟩ (by decide)
  exact ⟨h.1, h.2.1, h.2.2 0 (by decide) (by decide)⟩

end PolymerScan
